import Mathlib

/-!
Shallow embedding of the interception-and-pagination engine of
`src/api.ts` (the `Instagram` class and its helpers), together with
proofs about its duplicate suppression, cap enforcement, navigation
retries, rate-limit hibernation, grafting and buffer lifecycle.

Machine conventions used throughout:
* JSON payloads are modelled by the inductive `Json`; a response whose
  `res.json()` call throws is modelled by `none : Option Json`
  (JavaScript `undefined`).
* JavaScript truthiness is modelled by `Json.truthy`; `_.get` from
  lodash with a dotted path and a default is modelled by `jsGet` over an
  explicit list of keys.
* The asynchronous methods of the class mutate `this`; they are
  modelled as pure functions from `EngineState` to `EngineState`,
  processed in the exact statement order of the source.  Timed sleeps
  and simulated page interactions have no effect on engine state and
  are recorded as events (`Ev`) where a claim speaks about them.
-/

namespace Instamancer

/-- JSON values, as produced by parsing a response body. -/
inductive Json where
  | null
  | bool (b : Bool)
  | num (n : Int)
  | str (s : String)
  | arr (elems : List Json)
  | obj (fields : List (String × Json))

mutual

/-- Structural equality test on `Json` (JavaScript value equality on
primitives; object identifiers in the scraped payloads are strings). -/
def Json.beq : Json → Json → Bool
  | .null, .null => true
  | .bool a, .bool b => a == b
  | .num a, .num b => a == b
  | .str a, .str b => a == b
  | .arr a, .arr b => Json.beqL a b
  | .obj a, .obj b => Json.beqO a b
  | _, _ => false

/-- Elementwise `Json.beq` on arrays. -/
def Json.beqL : List Json → List Json → Bool
  | [], [] => true
  | a :: as, b :: bs => Json.beq a b && Json.beqL as bs
  | _, _ => false

/-- Fieldwise `Json.beq` on objects. -/
def Json.beqO : List (String × Json) → List (String × Json) → Bool
  | [], [] => true
  | (k, a) :: as, (l, b) :: bs => k == l && Json.beq a b && Json.beqO as bs
  | _, _ => false

end

theorem Json.beq_iff_aux : ∀ n : Nat, ∀ a b : Json, sizeOf a ≤ n → (Json.beq a b = true ↔ a = b) := by
  intro n
  induction n with
  | zero =>
    intro a b h
    cases a <;> simp at h
  | succ n ih =>
    intro a b h
    cases a <;> cases b <;> simp [Json.beq] <;> try rfl
    case arr.arr as bs =>
      have hs : sizeOf as ≤ n := by simp at h; omega
      clear h
      induction as generalizing bs with
      | nil => cases bs <;> simp [Json.beqL]
      | cons x xs ihl =>
        cases bs with
        | nil => simp [Json.beqL]
        | cons y ys =>
          have hx : sizeOf x ≤ n := by simp at hs; omega
          have hxs : sizeOf xs ≤ n := by simp at hs; omega
          simp [Json.beqL, ih x y hx, ihl ys hxs]
    case obj.obj as bs =>
      have hs : sizeOf as ≤ n := by simp at h; omega
      clear h
      induction as generalizing bs with
      | nil => cases bs <;> simp [Json.beqO]
      | cons x xs ihl =>
        cases bs with
        | nil => simp [Json.beqO]
        | cons y ys =>
          obtain ⟨k, v⟩ := x
          obtain ⟨l, w⟩ := y
          have hx : sizeOf v ≤ n := by simp at hs; omega
          have hxs : sizeOf xs ≤ n := by simp at hs; omega
          simp [Json.beqO, ih v w hx, ihl ys hxs]

theorem Json.beq_iff (a b : Json) : Json.beq a b = true ↔ a = b :=
  Json.beq_iff_aux (sizeOf a) a b (Nat.le_refl _)

instance : DecidableEq Json := fun a b => decidable_of_iff (Json.beq a b = true) (Json.beq_iff a b)

/-- Field lookup in a JSON object literal (first binding wins, as in the
parsed payloads where keys are unique). -/
def lookupField : List (String × Json) → String → Option Json
  | [], _ => none
  | (k, v) :: rest, key => if k == key then some v else lookupField rest key

/-- Property access `j[k]`; `none` models JavaScript `undefined`. -/
def Json.getField : Json → String → Option Json
  | .obj fields, k => lookupField fields k
  | _, _ => none

/-- Path traversal through nested objects, as performed by lodash
`_.get` after splitting a dotted path string on the dots. -/
def Json.getPath : Json → List String → Option Json
  | j, [] => some j
  | j, k :: ks =>
    match j.getField k with
    | none => none
    | some v => Json.getPath v ks

/-- JavaScript truthiness of a JSON value. -/
def Json.truthy : Json → Bool
  | .null => false
  | .bool b => b
  | .num n => n != 0
  | .str s => s != ""
  | .arr _ => true
  | .obj _ => true

/-- lodash `_.get(data, path, dflt)` where `data` may be `undefined`
(the parse-failure case): the default is returned exactly when the path
resolves to `undefined`. -/
def jsGet (data : Option Json) (path : List String) (dflt : Json) : Json :=
  match data with
  | none => dflt
  | some d => (Json.getPath d path).getD dflt

/-- Test for the JavaScript condition
`data && "status" in data && data["status"] === "fail"`
of `processResponses` (the rate-limit marker). -/
def statusFail (data : Option Json) : Bool :=
  match data with
  | none => false
  | some d => d.truthy && (d.getField "status").isSome && (d.getField "status" == some (.str "fail"))

/-- Record identifiers as obtained by `post["node"]["id"]`; `none`
models an `undefined` lookup result. -/
abbrev PostId := Option Json

/-- Identifier of a post envelope: `post["node"]["id"]`. -/
def idOf (post : Json) : PostId := post.getPath ["node", "id"]

/-- Short code of a post envelope: `post["node"]["shortcode"]`. -/
def shortcodeOf (post : Json) : PostId := post.getPath ["node", "shortcode"]

/-- The `PostIdSet` class: a set of post ids used to detect duplicates. -/
structure PostIdSet where
  ids : List PostId
deriving DecidableEq

/-- The `PostIdSet.add` method: return whether the id was already in the
set, and insert it (a JavaScript `Set` keeps one copy of each value). -/
def PostIdSet.add (s : PostIdSet) (id : PostId) : Bool × PostIdSet :=
  let contains := decide (id ∈ s.ids)
  (contains, ⟨if id ∈ s.ids then s.ids else id :: s.ids⟩)

/-- Repeated `PostIdSet.add`, keeping only the final set. -/
def PostIdSet.addAll (s : PostIdSet) : List PostId → PostIdSet
  | [] => s
  | i :: rest => PostIdSet.addAll (s.add i).2 rest

/-- The empty `PostIdSet`, as built by the `Instagram` constructor. -/
def PostIdSet.empty : PostIdSet := ⟨[]⟩

/-- Request headers, as the key-value map puppeteer exposes. -/
abbrev Headers := List (String × String)

/-- An intercepted outgoing request: its URL and headers. -/
structure Request where
  url : String
  headers : Headers
deriving DecidableEq

/-- An intercepted response: its URL and the result of `res.json()`
(`none` when parsing the body throws). -/
structure Response where
  url : String
  json : Option Json
deriving DecidableEq

/-- Configuration fixed at construction: `IOptions` after
`defaultOptions`, plus the resource's query paths (the dotted
`pageQuery` / `edgeQuery` strings split on the dots) and the
`jumpMod` field (initialized to 100 in the source). -/
structure Config where
  total : Nat
  enableGrafting : Bool
  fullAPI : Bool
  sleepTime : Nat
  hibernationTime : Nat
  jumpMod : Nat
  pageQuery : List String
  edgeQuery : List String
deriving DecidableEq

/-- Mutable fields of the `Instagram` instance that the embedded
operations read or write.  `pagePromises` keeps the short codes of the
detail pages scheduled in full-API mode. -/
structure EngineState where
  postBuffer : List Json
  requestBuffer : List Request
  responseBuffer : List Response
  pagePromises : List PostId
  postIds : PostIdSet
  graft : Bool
  lastURL : Option String
  lastHeaders : Option Headers
  hibernate : Bool
  started : Bool
  paused : Bool
  finished : Bool
  index : Nat
  jumps : Nat
  pageUrlAttempts : Nat
deriving DecidableEq

/-- State of a fresh `Instagram` instance right after the constructor. -/
def initState : EngineState where
  postBuffer := []
  requestBuffer := []
  responseBuffer := []
  pagePromises := []
  postIds := PostIdSet.empty
  graft := false
  lastURL := none
  lastHeaders := none
  hibernate := false
  started := false
  paused := false
  finished := false
  index := 0
  jumps := 0
  pageUrlAttempts := 0

/-- Character-list test that `pat` starts the list `s`. -/
def leadChars : List Char → List Char → Bool
  | [], _ => true
  | _ :: _, [] => false
  | a :: as, b :: bs => a == b && leadChars as bs

/-- Character-list test that `pat` occurs contiguously inside `s`. -/
def subChars (pat : List Char) : List Char → Bool
  | [] => leadChars pat []
  | c :: cs => leadChars pat (c :: cs) || subChars pat cs

/-- `url.startsWith(pat)`. -/
def strStarts (pat s : String) : Bool := leadChars pat.toList s.toList

/-- `s.includes(pat)`. -/
def strHas (s pat : String) : Bool := subChars pat.toList s.toList

/-- The fixed `catchURL` field of the class. -/
def catchURL : String := "https://www.instagram.com/graphql/query"

/-- The `matchURL` method: URL starts with `catchURL` and does not
contain the marker substring "include_reel". -/
def matchURL (url : String) : Bool :=
  strStarts catchURL url && !(strHas url "include_reel")

/-- What `req.continue({headers, url})` received for one request: the
request plus the URL and headers overrides (`none` models passing a
JavaScript `undefined` field, which happens when grafting fires before
any template was captured). -/
abbrev Continued := Request × Option String × Option Headers

/-- Loop body of `processRequests` over the drained buffer: non-matching
requests are skipped (the source never calls `req.continue()` on them),
matching ones are continued with either the stored graft template or
their own URL and headers, the latter case updating the template. -/
def reqLoop (s : EngineState) : List Request → EngineState × List Continued
  | [] => (s, [])
  | req :: rest =>
    if !matchURL req.url then reqLoop s rest
    else if s.graft then
      let r := reqLoop s rest
      (r.1, (req, s.lastURL, s.lastHeaders) :: r.2)
    else
      let s1 := { s with lastURL := some req.url, lastHeaders := some req.headers }
      let r := reqLoop s1 rest
      (r.1, (req, some req.url, some req.headers) :: r.2)

/-- The `processRequests` method: drain the request buffer, continuing
each matching request, then clear the buffer.  Also returns the list of
continued requests with the overrides they were continued with. -/
def processRequests (s : EngineState) : EngineState × List Continued :=
  let r := reqLoop s s.requestBuffer
  ({ r.1 with requestBuffer := [] }, r.2)

/-- Array of post envelopes extracted by `_.get(data, edgeQuery, [])`.
A defined non-array lookup result is modelled as the empty iteration
(the source would throw on `for...of` there; no claim exercises it). -/
def postsOf (cfg : Config) (data : Option Json) : List Json :=
  match jsGet data cfg.edgeQuery (.arr []) with
  | .arr xs => xs
  | _ => []

/-- Inner `for (const post of posts)` loop of `processResponses`:
every id is fed to `PostIdSet.add` first; duplicates are logged and
skipped; otherwise, under the cap (or with `total = 0`), the emitted
count is incremented and the post enqueued (or its detail page
scheduled in full-API mode); the first fresh post past the cap sets
`finished` and breaks out of the loop. -/
def processPosts (cfg : Config) : EngineState → List Json → EngineState
  | s, [] => s
  | s, post :: rest =>
    let added := s.postIds.add (idOf post)
    let s := { s with postIds := added.2 }
    if added.1 then processPosts cfg s rest
    else if s.index < cfg.total || cfg.total == 0 then
      let s := { s with index := s.index + 1 }
      let s :=
        if cfg.fullAPI then { s with pagePromises := s.pagePromises ++ [shortcodeOf post] }
        else { s with postBuffer := s.postBuffer ++ [post] }
      processPosts cfg s rest
    else
      { s with finished := true }

/-- Per-response body of `processResponses`, after the URL match: parse
the JSON (a throwing parse leaves `data` undefined and falls through),
skip the rest on the rate-limit marker after setting `hibernate`,
set `finished` unless the page-info path yields a truthy next-page flag
and a truthy end cursor, then run the posts loop. -/
def processResponse (cfg : Config) (s : EngineState) (res : Response) : EngineState :=
  let data := res.json
  if statusFail data then { s with hibernate := true }
  else
    let s :=
      if !(Json.truthy (jsGet data (cfg.pageQuery ++ ["has_next_page"]) (.bool false)) &&
           Json.truthy (jsGet data (cfg.pageQuery ++ ["end_cursor"]) (.bool false)))
      then { s with finished := true } else s
    processPosts cfg s (postsOf cfg data)

/-- The `for (const res of this.responseBuffer)` loop: skip responses
whose URL does not match, otherwise set the `disableGraft` flag and
process the response.  Returns the final state and the flag. -/
def processMatched (cfg : Config) : EngineState → List Response → EngineState × Bool
  | s, [] => (s, false)
  | s, res :: rest =>
    if !matchURL res.url then processMatched cfg s rest
    else
      let r := processMatched cfg (processResponse cfg s res) rest
      (r.1, true)

/-- The `processResponses` method: run the loop over the buffer, switch
grafting off when it was on and a matching response was seen, then
clear the buffer. -/
def processResponses (cfg : Config) (s : EngineState) : EngineState :=
  let r := processMatched cfg s s.responseBuffer
  let s2 := if r.1.graft && r.2 then { r.1 with graft := false } else r.1
  { s2 with responseBuffer := [] }

/-- The `stop` method's effect on engine state: both interception
buffers are cleared; nothing else changes (the page and browser close
and the awaited page promises live outside the state). -/
def stop (s : EngineState) : EngineState :=
  { s with requestBuffer := [], responseBuffer := [] }

/-- The `start` method's effect on engine state: the page is rebuilt and
`started` is set.  Navigation is modelled as succeeding here; the
pre-start retry behaviour of `constructPage` is modelled separately. -/
def start (s : EngineState) : EngineState :=
  { s with started := true }

/-- The `initiateGraft` method: a no-op unless grafting is enabled in
configuration; otherwise stop the session, raise the graft flag and
restart. -/
def initiateGraft (cfg : Config) (s : EngineState) : EngineState :=
  if !cfg.enableGrafting then s
  else start { stop s with graft := true }

/-- The `pause` method: toggle the pause flag. -/
def pause (s : EngineState) : EngineState := { s with paused := !s.paused }

/-- The `toggleHibernation` method: force the hibernation branch. -/
def toggleHibernation (s : EngineState) : EngineState := { s with hibernate := true }

/-- The `maxPageUrlAttempts` field. -/
def maxPageUrlAttempts : Nat := 3

/-- Externally visible actions performed by `constructPage`. -/
inductive NavEv where
  | launch
  | goto
  | logError
  | sleepFor (n : Nat)
  | closePage
  | closeBrowser
deriving DecidableEq

/-- The `constructPage` method, driven by a script of navigation
outcomes (`true` = the `page.goto` call succeeds).  Carries the
`pageUrlAttempts` counter and the `started` flag; returns the final
counter and the trace of actions, or `Except.error` for the thrown
"Failed to visit URL", or `none` when the outcome script runs out.
The guard compares the counter before incrementing it, exactly as the
source's `this.pageUrlAttempts++ === this.maxPageUrlAttempts`. -/
def constructPage : List Bool → Nat → Bool → Option (Except String (Nat × List NavEv))
  | [], _, _ => none
  | ok :: rest, attempts, started =>
    if ok then some (.ok (attempts, [.launch, .goto]))
    else if attempts == maxPageUrlAttempts && !started then some (.error "Failed to visit URL")
    else
      match constructPage rest (attempts + 1) started with
      | none => none
      | some (.error e) => some (.error e)
      | some (.ok (a, evs)) =>
        some (.ok (a, [.launch, .goto, .logError, .sleepFor 60, .closePage, .closeBrowser] ++ evs))

/-- Requests and responses the interception callbacks delivered during
one iteration of the `getNext` polling loop. -/
structure CycleInput where
  requests : List Request
  responses : List Response
deriving DecidableEq

/-- Timed sleeps and page interactions of one polling iteration. -/
inductive Ev where
  | jumpEv
  | graftEv
  | sleepEv (n : Nat)
  | hibSleepEv (n : Nat)
deriving DecidableEq

/-- Buffer-draining part of one `getNext` iteration: append the newly
intercepted events to the buffers, run `processRequests` then
`processResponses`, and clear the awaited detail-page promises. -/
def drain (cfg : Config) (s : EngineState) (c : CycleInput) : EngineState :=
  let s1 := (processRequests { s with requestBuffer := s.requestBuffer ++ c.requests }).1
  let s2 := processResponses cfg { s1 with responseBuffer := s1.responseBuffer ++ c.responses }
  { s2 with pagePromises := [] }

/-- One iteration of the `while (true)` loop in `getNext`: drain the
buffers, break when `finished`, otherwise jump, graft every `jumpMod`
jumps, sleep, hibernate once if the flag is up (clearing it), and
break when the post buffer is non-empty.  The pause busy-wait is
state-neutral and not modelled.  Returns the state, the events of the
iteration, and whether the loop breaks. -/
def pollOnce (cfg : Config) (s : EngineState) (c : CycleInput) : EngineState × List Ev × Bool :=
  let s := drain cfg s c
  if s.finished then (s, [], true)
  else
    let s := { s with jumps := s.jumps + 1 }
    let graftNow := s.jumps % cfg.jumpMod == 0
    let s := if graftNow then initiateGraft cfg s else s
    let hib := s.hibernate
    let s := if hib then { s with hibernate := false } else s
    let evs := Ev.jumpEv :: (if graftNow then [Ev.graftEv] else []) ++
      [Ev.sleepEv cfg.sleepTime] ++ (if hib then [Ev.hibSleepEv cfg.hibernationTime] else [])
    (s, evs, decide (0 < s.postBuffer.length))

/-- The `getNext` method: iterate `pollOnce` until it breaks or the
script of intercepted inputs runs out. -/
def getNextRun (cfg : Config) : EngineState → List CycleInput → EngineState × List Ev
  | s, [] => (s, [])
  | s, c :: cs =>
    let r := pollOnce cfg s c
    if r.2.2 then (r.1, r.2.1)
    else
      let r' := getNextRun cfg r.1 cs
      (r'.1, r.2.1 ++ r'.2)

/-- The `generator` method after `start`: repeatedly call `getNext`,
yield every post of the buffer (the pop loop empties it), and end once
`finished` with the buffer exhausted, closing the session with `stop`.
One outer list entry scripts the inputs of one `getNext` call.
Returns the yielded posts in order and the final state. -/
def generatorRun (cfg : Config) : EngineState → List (List CycleInput) → List Json × EngineState
  | s, [] => ([], s)
  | s, ci :: rest =>
    let s1 := (getNextRun cfg s ci).1
    let yielded := s1.postBuffer
    let s2 := { s1 with postBuffer := [] }
    if s2.finished then (yielded, stop s2)
    else
      let r := generatorRun cfg s2 rest
      (yielded ++ r.1, r.2)

/-- Page-info query path of the `Hashtag` subclass, split on dots. -/
def hashtagPageQuery : List String :=
  ["data", "hashtag", "edge_hashtag_to_media", "page_info"]

/-- Edge query path of the `Hashtag` subclass, split on dots. -/
def hashtagEdgeQuery : List String :=
  ["data", "hashtag", "edge_hashtag_to_media", "edges"]

/-- Configuration of a `Hashtag` scrape with the given cap and the
`defaultOptions` defaults for every other option. -/
def hashtagConfig (total : Nat) : Config where
  total := total
  enableGrafting := true
  fullAPI := false
  sleepTime := 2
  hibernationTime := 1200
  jumpMod := 100
  pageQuery := hashtagPageQuery
  edgeQuery := hashtagEdgeQuery

/-- Ids of a list of post envelopes. -/
def pidList (l : List Json) : List PostId := l.map idOf

/-- Number of posts in the list whose id is fresh with respect to the
seen set, counting each id once (mirrors the running `PostIdSet`). -/
def freshCount : List Json → List PostId → Nat
  | [], _ => 0
  | p :: rest, seen =>
    if idOf p ∈ seen then freshCount rest seen
    else freshCount rest (idOf p :: seen) + 1

/-- Seen set after scanning the posts of `freshCount`. -/
def seenAfter : List Json → List PostId → List PostId
  | [], seen => seen
  | p :: rest, seen =>
    if idOf p ∈ seen then seenAfter rest seen
    else seenAfter rest (idOf p :: seen)

/-- All post envelopes supplied by the responses that match the target
URL and do not carry the rate-limit marker, in response order
(a response with an unparseable body contributes no posts). -/
def matchingPosts (cfg : Config) : List Response → List Json
  | [] => []
  | r :: rest =>
    (if matchURL r.url && !statusFail r.json then postsOf cfg r.json else []) ++
      matchingPosts cfg rest

/-- Post envelope used by the concrete examples. -/
def mkPost (id : String) : Json :=
  .obj [("node", .obj [("id", .str id), ("shortcode", .str ("s" ++ id))])]

/-- Response body of a hashtag page with the given pagination metadata
and post envelopes. -/
def mkBody (hasNext : Bool) (cursor : String) (posts : List Json) : Json :=
  .obj [("data", .obj [("hashtag", .obj [("edge_hashtag_to_media", .obj
    [("page_info", .obj [("has_next_page", .bool hasNext), ("end_cursor", .str cursor)]),
     ("edges", .arr posts)])])])]

/-- A URL that matches the target API pattern. -/
def exURL : String := "https://www.instagram.com/graphql/query?query_hash=abc"

theorem PostIdSet.mem_add (s : PostIdSet) (i j : PostId) :
    i ∈ ((s.add j).2).ids ↔ i = j ∨ i ∈ s.ids := by
  simp only [PostIdSet.add]
  by_cases h : j ∈ s.ids
  · simp only [if_pos h]
    constructor
    · exact Or.inr
    · rintro (rfl | hi)
      · exact h
      · exact hi
  · simp [if_neg h]

theorem PostIdSet.mem_addAll (l : List PostId) (s : PostIdSet) (i : PostId) :
    i ∈ (s.addAll l).ids ↔ i ∈ s.ids ∨ i ∈ l := by
  induction l generalizing s with
  | nil => simp [PostIdSet.addAll]
  | cons j rest ih =>
    simp only [PostIdSet.addAll, ih, PostIdSet.mem_add, List.mem_cons]
    tauto

/-- C9: `PostIdSet.add id` reports `true` exactly when `id` was passed
to a previous `add` on the same set; after any `add id` the id is a
member; adding an already present id leaves the set unchanged; and no
`add` removes a member, so the set grows monotonically. -/
theorem claim_C9 :
    (∀ (l : List PostId) (i : PostId),
      ((PostIdSet.empty.addAll l).add i).1 = true ↔ i ∈ l) ∧
    (∀ (s : PostIdSet) (i : PostId), i ∈ ((s.add i).2).ids) ∧
    (∀ (s : PostIdSet) (i : PostId), (((s.add i).2).add i).2 = (s.add i).2) ∧
    (∀ (s : PostIdSet) (i j : PostId), i ∈ s.ids → i ∈ ((s.add j).2).ids) := by
  refine ⟨?_, ?_, ?_, ?_⟩
  · intro l i
    simp [PostIdSet.add, PostIdSet.mem_addAll, PostIdSet.empty]
  · intro s i
    simp [PostIdSet.mem_add]
  · intro s i
    have h : i ∈ (if i ∈ s.ids then s.ids else i :: s.ids) := by
      by_cases hm : i ∈ s.ids <;> simp [hm]
    simp [PostIdSet.add, h]
  · intro s i j h
    simp [PostIdSet.mem_add, h]

/-- C9 witness: a member of the set survives adding another id. -/
theorem claim_C9_witness :
    (some (Json.str "a") : PostId) ∈
      ((PostIdSet.mk [some (Json.str "a")]).add (some (Json.str "b"))).2.ids :=
  claim_C9.2.2.2 (PostIdSet.mk [some (Json.str "a")]) (some (Json.str "a"))
    (some (Json.str "b")) (by simp)

theorem reqLoop_frame (reqs : List Request) (s : EngineState) :
    ∃ u h, (reqLoop s reqs).1 = { s with lastURL := u, lastHeaders := h } := by
  induction reqs generalizing s with
  | nil => exact ⟨s.lastURL, s.lastHeaders, rfl⟩
  | cons r rest ih =>
    simp only [reqLoop]
    by_cases hm : matchURL r.url
    · rw [if_neg (by simp [hm])]
      by_cases hg : (s.graft : Bool)
      · rw [if_pos hg]
        exact ih s
      · rw [if_neg hg]
        exact ih { s with lastURL := some r.url, lastHeaders := some r.headers }
    · simpa [hm] using ih s

theorem processRequests_frame (s : EngineState) :
    ∃ u h, (processRequests s).1 =
      { s with requestBuffer := [], lastURL := u, lastHeaders := h } := by
  obtain ⟨u, h, hr⟩ := reqLoop_frame s.requestBuffer s
  exact ⟨u, h, by simp only [processRequests, hr]⟩

theorem processPosts_frame (cfg : Config) (posts : List Json) (s : EngineState) :
    ∃ pb pp ids fin idx,
      processPosts cfg s posts =
        { s with postBuffer := pb, pagePromises := pp, postIds := ids,
                 finished := fin, index := idx } := by
  induction posts generalizing s with
  | nil =>
    exact ⟨s.postBuffer, s.pagePromises, s.postIds, s.finished, s.index, rfl⟩
  | cons p rest ih =>
    simp only [processPosts]
    by_cases hdup : ((s.postIds.add (idOf p)).1 : Bool)
    · simp only [hdup, if_true]
      obtain ⟨pb, pp, ids, fin, idx, hr⟩ := ih { s with postIds := (s.postIds.add (idOf p)).2 }
      exact ⟨pb, pp, ids, fin, idx, hr⟩
    · simp only [hdup, Bool.false_eq_true, if_false]
      by_cases hcap : ((s.index < cfg.total || cfg.total == 0) : Bool)
      · simp only [hcap, if_true]
        by_cases hfa : cfg.fullAPI
        · simp only [hfa, if_true]
          obtain ⟨pb, pp, ids, fin, idx, hr⟩ := ih
            { s with postIds := (s.postIds.add (idOf p)).2, index := s.index + 1,
                     pagePromises := s.pagePromises ++ [shortcodeOf p] }
          exact ⟨pb, pp, ids, fin, idx, hr⟩
        · simp only [hfa, Bool.false_eq_true, if_false]
          obtain ⟨pb, pp, ids, fin, idx, hr⟩ := ih
            { s with postIds := (s.postIds.add (idOf p)).2, index := s.index + 1,
                     postBuffer := s.postBuffer ++ [p] }
          exact ⟨pb, pp, ids, fin, idx, hr⟩
      · simp only [hcap, Bool.false_eq_true, if_false]
        exact ⟨s.postBuffer, s.pagePromises, (s.postIds.add (idOf p)).2, true, s.index, rfl⟩

theorem processResponse_frame (cfg : Config) (r : Response) (s : EngineState) :
    ∃ pb pp ids fin idx hib,
      processResponse cfg s r =
        { s with postBuffer := pb, pagePromises := pp, postIds := ids,
                 finished := fin, index := idx, hibernate := hib } := by
  simp only [processResponse]
  by_cases hsf : statusFail r.json
  · simp only [hsf, if_true]
    exact ⟨s.postBuffer, s.pagePromises, s.postIds, s.finished, s.index, true, rfl⟩
  · simp only [hsf, Bool.false_eq_true, if_false]
    by_cases hpi : (!(Json.truthy (jsGet r.json (cfg.pageQuery ++ ["has_next_page"]) (.bool false)) &&
        Json.truthy (jsGet r.json (cfg.pageQuery ++ ["end_cursor"]) (.bool false))) : Bool)
    · simp only [hpi, if_true]
      obtain ⟨pb, pp, ids, fin, idx, hr⟩ :=
        processPosts_frame cfg (postsOf cfg r.json) { s with finished := true }
      exact ⟨pb, pp, ids, fin, idx, s.hibernate, by rw [hr]⟩
    · simp only [hpi, Bool.false_eq_true, if_false]
      obtain ⟨pb, pp, ids, fin, idx, hr⟩ := processPosts_frame cfg (postsOf cfg r.json) s
      exact ⟨pb, pp, ids, fin, idx, s.hibernate, by rw [hr]⟩

theorem processMatched_frame (cfg : Config) (rs : List Response) (s : EngineState) :
    ∃ pb pp ids fin idx hib,
      (processMatched cfg s rs).1 =
        { s with postBuffer := pb, pagePromises := pp, postIds := ids,
                 finished := fin, index := idx, hibernate := hib } := by
  induction rs generalizing s with
  | nil =>
    exact ⟨s.postBuffer, s.pagePromises, s.postIds, s.finished, s.index, s.hibernate, rfl⟩
  | cons r rest ih =>
    simp only [processMatched]
    by_cases hm : matchURL r.url
    · rw [if_neg (by simp [hm])]
      obtain ⟨pb1, pp1, ids1, fin1, idx1, hib1, hr1⟩ := processResponse_frame cfg r s
      rw [hr1]
      exact ih _
    · simpa [hm] using ih s

theorem processResponses_frame (cfg : Config) (s : EngineState) :
    ∃ pb pp ids fin idx hib g,
      processResponses cfg s =
        { s with postBuffer := pb, pagePromises := pp, postIds := ids,
                 finished := fin, index := idx, hibernate := hib,
                 graft := g, responseBuffer := [] } := by
  obtain ⟨pb, pp, ids, fin, idx, hib, hr⟩ := processMatched_frame cfg s.responseBuffer s
  simp only [processResponses, hr]
  by_cases hg : (s.graft && (processMatched cfg s s.responseBuffer).2 : Bool)
  · refine ⟨pb, pp, ids, fin, idx, hib, false, ?_⟩
    rw [if_pos hg]
  · refine ⟨pb, pp, ids, fin, idx, hib, s.graft, ?_⟩
    rw [if_neg hg]

theorem initiateGraft_frame (cfg : Config) (s : EngineState) :
    ∃ g st,
      initiateGraft cfg s =
        { s with requestBuffer := if cfg.enableGrafting then [] else s.requestBuffer,
                 responseBuffer := if cfg.enableGrafting then [] else s.responseBuffer,
                 graft := g, started := st } := by
  simp only [initiateGraft, start, stop]
  by_cases he : cfg.enableGrafting
  · exact ⟨true, true, by simp [he]⟩
  · exact ⟨s.graft, s.started, by simp [he]⟩

theorem processPosts_buffer (cfg : Config) (posts : List Json) (s : EngineState) :
    ∃ t, (processPosts cfg s posts).postBuffer = s.postBuffer ++ t := by
  induction posts generalizing s with
  | nil => exact ⟨[], by simp [processPosts]⟩
  | cons p rest ih =>
    simp only [processPosts]
    by_cases hdup : ((s.postIds.add (idOf p)).1 : Bool)
    · simpa [hdup] using ih _
    · simp only [hdup, Bool.false_eq_true, if_false]
      by_cases hcap : ((s.index < cfg.total || cfg.total == 0) : Bool)
      · simp only [hcap, if_true]
        by_cases hfa : cfg.fullAPI
        · simpa [hfa] using ih _
        · simp only [hfa, Bool.false_eq_true, if_false]
          obtain ⟨t, ht⟩ := ih
            { s with postIds := (s.postIds.add (idOf p)).2, index := s.index + 1,
                     postBuffer := s.postBuffer ++ [p] }
          exact ⟨p :: t, by simpa using ht⟩
      · exact ⟨[], by simp [hcap]⟩

theorem processResponse_buffer (cfg : Config) (r : Response) (s : EngineState) :
    ∃ t, (processResponse cfg s r).postBuffer = s.postBuffer ++ t := by
  simp only [processResponse]
  by_cases hsf : statusFail r.json
  · exact ⟨[], by simp [hsf]⟩
  · simp only [hsf, Bool.false_eq_true, if_false]
    by_cases hpi : (!(Json.truthy (jsGet r.json (cfg.pageQuery ++ ["has_next_page"]) (.bool false)) &&
        Json.truthy (jsGet r.json (cfg.pageQuery ++ ["end_cursor"]) (.bool false))) : Bool)
    · simpa [hpi] using processPosts_buffer cfg (postsOf cfg r.json) { s with finished := true }
    · simpa [hpi] using processPosts_buffer cfg (postsOf cfg r.json) s

theorem processMatched_buffer (cfg : Config) (rs : List Response) (s : EngineState) :
    ∃ t, (processMatched cfg s rs).1.postBuffer = s.postBuffer ++ t := by
  induction rs generalizing s with
  | nil => exact ⟨[], by simp [processMatched]⟩
  | cons r rest ih =>
    simp only [processMatched]
    by_cases hm : matchURL r.url
    · simp only [hm, Bool.not_true, Bool.false_eq_true, if_false]
      obtain ⟨t1, ht1⟩ := processResponse_buffer cfg r s
      obtain ⟨t2, ht2⟩ := ih (processResponse cfg s r)
      exact ⟨t1 ++ t2, by rw [ht2, ht1, List.append_assoc]⟩
    · simpa [hm] using ih s

theorem processResponses_buffer (cfg : Config) (s : EngineState) :
    ∃ t, (processResponses cfg s).postBuffer = s.postBuffer ++ t := by
  obtain ⟨t, ht⟩ := processMatched_buffer cfg s.responseBuffer s
  refine ⟨t, ?_⟩
  simp only [processResponses]
  split <;> simpa using ht

theorem drain_buffer (cfg : Config) (s : EngineState) (c : CycleInput) :
    ∃ t, (drain cfg s c).postBuffer = s.postBuffer ++ t := by
  simp only [drain]
  obtain ⟨u, h, hq⟩ := processRequests_frame { s with requestBuffer := s.requestBuffer ++ c.requests }
  rw [hq]
  obtain ⟨t, ht⟩ := processResponses_buffer cfg
    { { s with requestBuffer := List.nil, lastURL := u, lastHeaders := h }
      with responseBuffer := s.responseBuffer ++ c.responses }
  exact ⟨t, by simpa using ht⟩

theorem initiateGraft_postBuffer (cfg : Config) (s : EngineState) :
    (initiateGraft cfg s).postBuffer = s.postBuffer := by
  obtain ⟨g, st, hg⟩ := initiateGraft_frame cfg s
  rw [hg]

theorem pollOnce_buffer (cfg : Config) (s : EngineState) (c : CycleInput) :
    ∃ t, (pollOnce cfg s c).1.postBuffer = s.postBuffer ++ t := by
  obtain ⟨t, ht⟩ := drain_buffer cfg s c
  refine ⟨t, ?_⟩
  simp only [pollOnce]
  split
  · exact ht
  · simp only [apply_ite EngineState.postBuffer, initiateGraft_postBuffer, ite_self]
    exact ht

theorem getNextRun_buffer (cfg : Config) (cs : List CycleInput) (s : EngineState) :
    ∃ t, (getNextRun cfg s cs).1.postBuffer = s.postBuffer ++ t := by
  induction cs generalizing s with
  | nil => exact ⟨[], by simp [getNextRun]⟩
  | cons c rest ih =>
    simp only [getNextRun]
    obtain ⟨t1, ht1⟩ := pollOnce_buffer cfg s c
    by_cases hb : ((pollOnce cfg s c).2.2 : Bool)
    · exact ⟨t1, by simpa [hb] using ht1⟩
    · simp only [hb, Bool.false_eq_true, if_false]
      obtain ⟨t2, ht2⟩ := ih (pollOnce cfg s c).1
      exact ⟨t1 ++ t2, by rw [ht2, ht1, List.append_assoc]⟩

theorem generatorRun_extends (cfg : Config) (s : EngineState) (ci : List CycleInput)
    (rest : List (List CycleInput)) :
    ∃ t, (generatorRun cfg s (ci :: rest)).1 = s.postBuffer ++ t := by
  obtain ⟨t, ht⟩ := getNextRun_buffer cfg ci s
  simp only [generatorRun]
  split
  · exact ⟨t, ht⟩
  · exact ⟨t ++ (generatorRun cfg _ rest).1, by rw [ht, List.append_assoc]⟩

/-- C10: `stop` clears the request and response buffers but leaves the
output post buffer (and the id cache and emitted count) unchanged;
`initiateGraft`, which calls `stop` then `start`, also preserves the
post buffer, so records extracted before a graft are still yielded:
every run of the generator yields the already-buffered records first. -/
theorem claim_C10 :
    (∀ s, (stop s).postBuffer = s.postBuffer ∧ (stop s).requestBuffer = [] ∧
      (stop s).responseBuffer = [] ∧ (stop s).postIds = s.postIds ∧
      (stop s).index = s.index) ∧
    (∀ cfg s, (initiateGraft cfg s).postBuffer = s.postBuffer) ∧
    (∀ cfg s ci rest, ∃ t, (generatorRun cfg s (ci :: rest)).1 = s.postBuffer ++ t) := by
  refine ⟨fun s => ⟨rfl, rfl, rfl, rfl, rfl⟩, ?_, ?_⟩
  · intro cfg s
    obtain ⟨g, st, hg⟩ := initiateGraft_frame cfg s
    rw [hg]
  · intro cfg s ci rest
    exact generatorRun_extends cfg s ci rest

/-- URL template stored after sequentially processing the requests in
non-graft mode: the URL of the last matching request, if any. -/
def templateAfter : List Request → Option String → Option String
  | [], u => u
  | r :: rest, u =>
    if matchURL r.url then templateAfter rest (some r.url) else templateAfter rest u

/-- Headers template stored after sequentially processing the requests
in non-graft mode: the headers of the last matching request, if any. -/
def headersAfter : List Request → Option Headers → Option Headers
  | [], h => h
  | r :: rest, h =>
    if matchURL r.url then headersAfter rest (some r.headers) else headersAfter rest h

theorem reqLoop_graft (reqs : List Request) (s : EngineState) (hg : s.graft = true) :
    reqLoop s reqs =
      (s, (reqs.filter (fun r => matchURL r.url)).map (fun r => (r, s.lastURL, s.lastHeaders))) := by
  induction reqs with
  | nil => simp [reqLoop]
  | cons r rest ih =>
    simp only [reqLoop]
    by_cases hm : matchURL r.url
    · rw [if_neg (by simp [hm]), if_pos hg, ih]
      simp [hm]
    · rw [if_pos (by simp [hm])]
      rw [ih]
      simp [hm]

theorem reqLoop_nograft (reqs : List Request) (s : EngineState) (hg : s.graft = false) :
    (reqLoop s reqs).2 =
      (reqs.filter (fun r => matchURL r.url)).map (fun r => (r, some r.url, some r.headers)) ∧
    (reqLoop s reqs).1.lastURL = templateAfter reqs s.lastURL ∧
    (reqLoop s reqs).1.lastHeaders = headersAfter reqs s.lastHeaders := by
  induction reqs generalizing s with
  | nil => simp [reqLoop, templateAfter, headersAfter]
  | cons r rest ih =>
    simp only [reqLoop, templateAfter, headersAfter]
    by_cases hm : matchURL r.url
    · rw [if_neg (by simp [hm]), if_neg (by simp [hg]), if_pos hm, if_pos hm]
      obtain ⟨h1, h2, h3⟩ := ih { s with lastURL := some r.url, lastHeaders := some r.headers } hg
      exact ⟨by simp [hm, h1], h2, h3⟩
    · rw [if_pos (by simp [hm]), if_neg hm, if_neg hm]
      obtain ⟨h1, h2, h3⟩ := ih s hg
      exact ⟨by simp [hm, h1], h2, h3⟩

/-- C5: while the graft flag is up, `processRequests` continues every
buffered request matching the API pattern with exactly the stored
template URL and headers (ignoring the request's own URL and headers,
and leaving the template untouched); while the flag is down, every
matching request is continued with its own unmodified URL and headers,
and the stored template ends up being the last matching request's URL
and headers. -/
theorem claim_C5 (s : EngineState) :
    (s.graft = true →
      (processRequests s).2 =
        (s.requestBuffer.filter (fun r => matchURL r.url)).map
          (fun r => (r, s.lastURL, s.lastHeaders)) ∧
      (processRequests s).1.lastURL = s.lastURL ∧
      (processRequests s).1.lastHeaders = s.lastHeaders) ∧
    (s.graft = false →
      (processRequests s).2 =
        (s.requestBuffer.filter (fun r => matchURL r.url)).map
          (fun r => (r, some r.url, some r.headers)) ∧
      (processRequests s).1.lastURL = templateAfter s.requestBuffer s.lastURL ∧
      (processRequests s).1.lastHeaders = headersAfter s.requestBuffer s.lastHeaders) := by
  constructor
  · intro hg
    have h := reqLoop_graft s.requestBuffer s hg
    simp only [processRequests, h]
    exact ⟨trivial, trivial, trivial⟩
  · intro hg
    obtain ⟨h1, h2, h3⟩ := reqLoop_nograft s.requestBuffer s hg
    simp only [processRequests]
    exact ⟨h1, h2, h3⟩

/-- C5 witness: a concrete grafting state with one matching and one
non-matching buffered request: the matching request is continued with
the stored template, not its own URL. -/
theorem claim_C5_witness :
    (processRequests
      { initState with
        graft := true,
        lastURL := some "https://www.instagram.com/graphql/query?template=1",
        lastHeaders := some [("cookie", "t")],
        requestBuffer :=
          [⟨"https://www.instagram.com/graphql/query?fresh=2", [("cookie", "f")]⟩,
           ⟨"https://www.instagram.com/other", []⟩] }).2 =
      [(⟨"https://www.instagram.com/graphql/query?fresh=2", [("cookie", "f")]⟩,
        some "https://www.instagram.com/graphql/query?template=1", some [("cookie", "t")])] := by
  have h := (claim_C5
    { initState with
      graft := true,
      lastURL := some "https://www.instagram.com/graphql/query?template=1",
      lastHeaders := some [("cookie", "t")],
      requestBuffer :=
        [⟨"https://www.instagram.com/graphql/query?fresh=2", [("cookie", "f")]⟩,
         ⟨"https://www.instagram.com/other", []⟩] }).1 rfl
  rw [h.1]
  rfl

/-- Trace of one failed navigation attempt that is retried: the error
is logged, the engine sleeps 60 seconds, and the page and browser are
closed before the session is reconstructed. -/
def retryTrace : List NavEv :=
  [.launch, .goto, .logError, .sleepFor 60, .closePage, .closeBrowser]

/-- C3 counterexample: three consecutive pre-start navigation failures
do not abort the scrape.  The post-increment comparison in
`constructPage` lets the third failure retry like the first two (each
logging, sleeping 60 seconds and closing page and browser), and a
fourth attempt that succeeds starts the engine normally. -/
theorem claim_C3_counterexample :
    constructPage [false, false, false, true] 0 false =
      some (.ok (3, retryTrace ++ retryTrace ++ retryTrace ++ [.launch, .goto])) ∧
    ∀ e, constructPage [false, false, false, true] 0 false ≠ some (.error e) := by
  constructor
  · rfl
  · intro e h
    rw [show constructPage [false, false, false, true] 0 false =
      some (.ok (3, retryTrace ++ retryTrace ++ retryTrace ++ [.launch, .goto])) from rfl] at h
    simp at h

theorem constructPage_started (outcomes : List Bool) :
    ∀ n e, constructPage outcomes n true ≠ some (.error e) := by
  induction outcomes with
  | nil => intro n e h; simp [constructPage] at h
  | cons ok rest ih =>
    intro n e h
    by_cases hok : ok
    · simp [constructPage, hok] at h
    · simp only [constructPage, hok, Bool.false_eq_true, if_false, Bool.not_true,
        Bool.and_false, Bool.false_eq_true] at h
      revert h
      cases hc : constructPage rest (n + 1) true with
      | none => simp
      | some r =>
        cases r with
        | error e' =>
          intro h
          exact ih (n + 1) e' hc
        | ok p => simp

/-- C3 amended: the fatal "Failed to visit URL" condition fires on the
fourth consecutive navigation failure of a never-started engine, not
the third; the first three failures each log the error, sleep 60
seconds, close the page and the browser, and rebuild the session; and
once the engine has started, no navigation failure ever produces the
fatal condition. -/
theorem claim_C3_amended :
    (∀ rest, constructPage ([false, false, false, false] ++ rest) 0 false =
      some (.error "Failed to visit URL")) ∧
    (constructPage [false, false, false, true] 0 false =
      some (.ok (3, retryTrace ++ retryTrace ++ retryTrace ++ [.launch, .goto]))) ∧
    (∀ outcomes n e, constructPage outcomes n true ≠ some (.error e)) := by
  refine ⟨?_, rfl, fun outcomes => constructPage_started outcomes⟩
  intro rest
  simp [constructPage, maxPageUrlAttempts]

theorem processResponse_parseFail (cfg : Config) (s : EngineState) (u : String) :
    processResponse cfg s ⟨u, none⟩ = { s with finished := true } := by
  simp [processResponse, statusFail, jsGet, Json.truthy, postsOf, processPosts]

/-- C4 counterexample: a matching response whose JSON body fails to
parse does not leave the `finished` flag unchanged — the missing
payload makes the page-info check fail and the drain marks the session
finished. -/
theorem claim_C4_counterexample :
    (processResponses (hashtagConfig 0)
      { initState with responseBuffer := [⟨exURL, none⟩] }).finished = true ∧
    initState.finished = false :=
  ⟨rfl, rfl⟩

/-- C4 amended: a matching response whose JSON body fails to parse is
logged and yields no record, is not fatal, and leaves the emitted
count, the hibernate flag, the post buffer and the id cache unchanged;
however, because the undefined payload fails the page-info lookup, the
drain sets the `finished` flag (and, the response having matched,
clears the graft flag). -/
theorem claim_C4_amended (cfg : Config) (s : EngineState) (r : Response)
    (hj : r.json = none) (hm : matchURL r.url = true) :
    processResponses cfg { s with responseBuffer := [r] } =
      { s with finished := true, graft := false, responseBuffer := [] } := by
  obtain ⟨ru, rj⟩ := r
  simp only at hj
  subst hj
  simp only at hm
  obtain ⟨pb, rqb, rsb, pp, ids, g, lu, lh, hib, st, pa, fin, idx, jm, pua⟩ := s
  by_cases hg : (g : Bool) <;>
    simp [processResponses, processMatched, hm, processResponse_parseFail, hg]

/-- C4 witness: the amended statement at a concrete parse-failure
response over a fresh hashtag session. -/
theorem claim_C4_witness :
    processResponses (hashtagConfig 0)
      { initState with responseBuffer := [(⟨exURL, none⟩ : Response)] } =
      { initState with finished := true, graft := false, responseBuffer := [] } :=
  claim_C4_amended (hashtagConfig 0) initState ⟨exURL, none⟩ rfl (by decide)

theorem processMatched_graft (cfg : Config) (rs : List Response) (s : EngineState) :
    (processMatched cfg s rs).1.graft = s.graft := by
  obtain ⟨pb, pp, ids, fin, idx, hib, hr⟩ := processMatched_frame cfg rs s
  rw [hr]

theorem processMatched_flag (cfg : Config) (rs : List Response) (s : EngineState) :
    (processMatched cfg s rs).2 = rs.any (fun r => matchURL r.url) := by
  induction rs generalizing s with
  | nil => simp [processMatched]
  | cons r rest ih =>
    simp only [processMatched, List.any_cons]
    by_cases hm : matchURL r.url
    · rw [if_neg (by simp [hm]), hm]
      simp
    · rw [if_pos (by simp [hm]), ih s]
      simp [hm]

/-- C6 counterexample: the graft flag is cleared by a drain cycle whose
only matching response fails to parse — no record was extracted and
nothing was successfully processed, contradicting the claim that the
flag survives until a successful extraction. -/
theorem claim_C6_counterexample :
    (processResponses (hashtagConfig 0)
      { initState with graft := true, responseBuffer := [⟨exURL, none⟩] }).graft = false ∧
    (processResponses (hashtagConfig 0)
      { initState with graft := true, responseBuffer := [⟨exURL, none⟩] }).postBuffer = [] ∧
    (processResponses (hashtagConfig 0)
      { initState with graft := true, responseBuffer := [⟨exURL, none⟩] }).index = 0 :=
  ⟨rfl, rfl, rfl⟩

/-- C6 amended: the graft flag is set only by `initiateGraft` (and only
when grafting is enabled in configuration) and is cleared by exactly
those drain cycles whose response buffer holds at least one response
with a matching URL — whether or not that response parsed or yielded
records; no other engine operation changes the flag. -/
theorem claim_C6_amended (cfg : Config) (s : EngineState) :
    ((processResponses cfg s).graft =
      (s.graft && !(s.responseBuffer.any (fun r => matchURL r.url)))) ∧
    ((initiateGraft cfg s).graft = (cfg.enableGrafting || s.graft)) ∧
    ((processRequests s).1.graft = s.graft) ∧
    ((stop s).graft = s.graft) ∧
    ((start s).graft = s.graft) ∧
    ((pause s).graft = s.graft) ∧
    ((toggleHibernation s).graft = s.graft) := by
  refine ⟨?_, ?_, ?_, rfl, rfl, rfl, rfl⟩
  · have hM := processMatched_graft cfg s.responseBuffer s
    have hF := processMatched_flag cfg s.responseBuffer s
    simp only [processResponses]
    by_cases hg : ((processMatched cfg s s.responseBuffer).1.graft &&
        (processMatched cfg s s.responseBuffer).2 : Bool)
    · rw [if_pos hg]
      simp only [hM, hF, Bool.and_eq_true] at hg
      simp [hg.1, hg.2]
    · rw [if_neg hg]
      simp only [hM, hF] at hg
      simp only [Bool.and_eq_true, not_and] at hg
      by_cases h1 : (s.graft : Bool)
      · have h2 := hg h1
        simp only [hM]
        simp [h1, h2]
      · simp only [hM]
        simp [h1]
  · by_cases he : (cfg.enableGrafting : Bool) <;> simp [initiateGraft, start, stop, he]
  · obtain ⟨u, h, hr⟩ := processRequests_frame s
    rw [hr]

theorem processResponse_statusFail (cfg : Config) (s : EngineState) (r : Response)
    (hsf : statusFail r.json = true) :
    processResponse cfg s r = { s with hibernate := true } := by
  simp [processResponse, hsf]

theorem initiateGraft_hibernate (cfg : Config) (s : EngineState) :
    (initiateGraft cfg s).hibernate = s.hibernate := by
  obtain ⟨g, st, hg⟩ := initiateGraft_frame cfg s
  rw [hg]

/-- C7: a matching response carrying the failure status marker sets the
hibernate flag and is otherwise skipped — no record is extracted and
the finished flag, the emitted count, the post buffer and the id cache
are untouched (only the graft flag is also dropped, the response having
matched); and any poll cycle whose drain leaves the engine unfinished
and hibernating sleeps the configured hibernation duration exactly once
and clears the flag. -/
theorem claim_C7 :
    (∀ cfg (s : EngineState) (r : Response),
      matchURL r.url = true → statusFail r.json = true →
      processResponses cfg { s with responseBuffer := [r] } =
        { s with hibernate := true, graft := false, responseBuffer := [] }) ∧
    (∀ cfg (s : EngineState) (c : CycleInput),
      (drain cfg s c).finished = false → (drain cfg s c).hibernate = true →
      (pollOnce cfg s c).2.1.count (Ev.hibSleepEv cfg.hibernationTime) = 1 ∧
      (pollOnce cfg s c).1.hibernate = false) := by
  constructor
  · intro cfg s r hm hsf
    obtain ⟨pb, rqb, rsb, pp, ids, g, lu, lh, hib, st, pa, fin, idx, jm, pua⟩ := s
    by_cases hg : (g : Bool) <;>
      simp [processResponses, processMatched, processResponse, hm, hsf, hg]
  · intro cfg s c h1 h2
    simp only [pollOnce]
    rw [if_neg (by simp [h1])]
    by_cases hj : ((((drain cfg s c).jumps + 1) % cfg.jumpMod == 0) : Bool)
    · simp only [hj, if_true]
      have hh : (initiateGraft cfg
          { drain cfg s c with jumps := (drain cfg s c).jumps + 1 }).hibernate = true := by
        rw [initiateGraft_hibernate]
        exact h2
      simp [hh, List.count_cons]
    · simp only [hj, Bool.false_eq_true, if_false]
      simp [h2, List.count_cons]

/-- C7 witness: a fresh session that was rate-limited (hibernate flag
up) runs one poll cycle with no new interceptions: the cycle sleeps the
hibernation duration exactly once and drops the flag. -/
theorem claim_C7_witness :
    (pollOnce (hashtagConfig 0) { initState with hibernate := true }
        ⟨[], []⟩).2.1.count (Ev.hibSleepEv (hashtagConfig 0).hibernationTime) = 1 ∧
    (pollOnce (hashtagConfig 0) { initState with hibernate := true } ⟨[], []⟩).1.hibernate = false :=
  claim_C7.2 (hashtagConfig 0) { initState with hibernate := true } ⟨[], []⟩ rfl rfl

/-- One engine step extends the post buffer by records whose ids are
fresh, pairwise distinct, and recorded in the id cache, which itself
only grows. -/
def dedupExt (s s' : EngineState) : Prop :=
  ∃ news, s'.postBuffer = s.postBuffer ++ news ∧ (pidList news).Nodup ∧
    (∀ i ∈ pidList news, i ∉ s.postIds.ids) ∧
    (∀ i ∈ pidList news, i ∈ s'.postIds.ids) ∧
    (∀ i ∈ s.postIds.ids, i ∈ s'.postIds.ids)

theorem dedupExt_refl (s : EngineState) : dedupExt s s :=
  ⟨[], by simp, by simp [pidList], by simp [pidList], by simp [pidList], fun _ hi => hi⟩

theorem dedupExt_trans {s s1 s2 : EngineState} (h1 : dedupExt s s1) (h2 : dedupExt s1 s2) :
    dedupExt s s2 := by
  obtain ⟨n1, hb1, hn1, hf1, hin1, hmono1⟩ := h1
  obtain ⟨n2, hb2, hn2, hf2, hin2, hmono2⟩ := h2
  refine ⟨n1 ++ n2, ?_, ?_, ?_, ?_, ?_⟩
  · rw [hb2, hb1, List.append_assoc]
  · simp only [pidList, List.map_append] at hn1 hn2 ⊢
    rw [List.nodup_append]
    refine ⟨hn1, hn2, ?_⟩
    intro i hi1 hi2
    exact hf2 i (by simpa [pidList] using hi2) (hin1 i (by simpa [pidList] using hi1))
  · intro i hi
    simp only [pidList, List.map_append, List.mem_append] at hi
    rcases hi with hi | hi
    · exact hf1 i (by simpa [pidList] using hi)
    · intro hmem
      exact hf2 i (by simpa [pidList] using hi) (hmono1 i hmem)
  · intro i hi
    simp only [pidList, List.map_append, List.mem_append] at hi
    rcases hi with hi | hi
    · exact hmono2 i (hin1 i (by simpa [pidList] using hi))
    · exact hin2 i (by simpa [pidList] using hi)
  · exact fun i hi => hmono2 i (hmono1 i hi)

theorem dedupExt_congr {s s' t : EngineState} (h : dedupExt s s')
    (hb : s'.postBuffer = t.postBuffer) (hi : s'.postIds = t.postIds) : dedupExt s t := by
  obtain ⟨news, h1, h2, h3, h4, h5⟩ := h
  exact ⟨news, hb ▸ h1, h2, h3, fun i hm => hi ▸ h4 i hm, fun i hm => hi ▸ h5 i hm⟩

theorem processPosts_dedup (cfg : Config) (posts : List Json) (s : EngineState)
    (hfa : cfg.fullAPI = false) : dedupExt s (processPosts cfg s posts) := by
  induction posts generalizing s with
  | nil => exact dedupExt_refl s
  | cons p rest ih =>
    simp only [processPosts]
    by_cases hdup : ((s.postIds.add (idOf p)).1 : Bool)
    · rw [if_pos hdup]
      have hmem : idOf p ∈ s.postIds.ids := by
        simpa [PostIdSet.add] using hdup
      have hids : (s.postIds.add (idOf p)).2.ids = s.postIds.ids := by
        simp [PostIdSet.add, hmem]
      have h := ih { s with postIds := (s.postIds.add (idOf p)).2 }
      obtain ⟨news, h1, h2, h3, h4, h5⟩ := h
      refine ⟨news, h1, h2, ?_, h4, ?_⟩
      · intro i him
        have := h3 i him
        rwa [hids] at this
      · intro i him
        exact h5 i (by rwa [hids])
    · rw [if_neg hdup]
      have hmem : idOf p ∉ s.postIds.ids := by
        simpa [PostIdSet.add] using hdup
      have hids : (s.postIds.add (idOf p)).2.ids = idOf p :: s.postIds.ids := by
        simp [PostIdSet.add, hmem]
      by_cases hcap : ((s.index < cfg.total || cfg.total == 0) : Bool)
      · rw [if_pos hcap]
        simp only [hfa, Bool.false_eq_true, if_false]
        have h := ih
          { s with
            postIds := (s.postIds.add (idOf p)).2,
            index := s.index + 1,
            postBuffer := s.postBuffer ++ [p] }
        obtain ⟨news, h1, h2, h3, h4, h5⟩ := h
        refine ⟨p :: news, ?_, ?_, ?_, ?_, ?_⟩
        · rw [h1]
          simp
        · simp only [pidList, List.map_cons, List.nodup_cons]
          refine ⟨?_, h2⟩
          intro hin
          exact h3 (idOf p) (by simpa [pidList] using hin) (by simp [hids])
        · intro i him
          simp only [pidList, List.map_cons, List.mem_cons] at him
          rcases him with rfl | him
          · exact hmem
          · intro hin
            exact h3 i (by simpa [pidList] using him) (by simp [hids, hin])
        · intro i him
          simp only [pidList, List.map_cons, List.mem_cons] at him
          rcases him with rfl | him
          · exact h5 (idOf p) (by simp [hids])
          · exact h4 i (by simpa [pidList] using him)
        · intro i him
          exact h5 i (by simp [hids, him])
      · rw [if_neg hcap]
        refine ⟨[], by simp, by simp [pidList], by simp [pidList], by simp [pidList], ?_⟩
        intro i him
        simp only [hids]
        simp [him]

theorem processResponse_dedup (cfg : Config) (r : Response) (s : EngineState)
    (hfa : cfg.fullAPI = false) : dedupExt s (processResponse cfg s r) := by
  simp only [processResponse]
  by_cases hsf : statusFail r.json
  · rw [if_pos hsf]
    exact ⟨[], by simp, by simp [pidList], by simp [pidList], by simp [pidList], fun _ hi => hi⟩
  · rw [if_neg hsf]
    by_cases hpi : ((!(Json.truthy (jsGet r.json (cfg.pageQuery ++ ["has_next_page"]) (.bool false)) &&
        Json.truthy (jsGet r.json (cfg.pageQuery ++ ["end_cursor"]) (.bool false)))) : Bool)
    · rw [if_pos hpi]
      exact processPosts_dedup cfg (postsOf cfg r.json) { s with finished := true } hfa
    · rw [if_neg hpi]
      exact processPosts_dedup cfg (postsOf cfg r.json) s hfa

theorem processMatched_dedup (cfg : Config) (rs : List Response) (s : EngineState)
    (hfa : cfg.fullAPI = false) : dedupExt s (processMatched cfg s rs).1 := by
  induction rs generalizing s with
  | nil => exact dedupExt_refl s
  | cons r rest ih =>
    simp only [processMatched]
    by_cases hm : matchURL r.url
    · rw [if_neg (by simp [hm])]
      exact dedupExt_trans (processResponse_dedup cfg r s hfa) (ih (processResponse cfg s r))
    · rw [if_pos (by simp [hm])]
      exact ih s

theorem processResponses_dedup (cfg : Config) (s : EngineState)
    (hfa : cfg.fullAPI = false) : dedupExt s (processResponses cfg s) := by
  have h := processMatched_dedup cfg s.responseBuffer s hfa
  simp only [processResponses]
  split
  · exact dedupExt_congr h rfl rfl
  · exact dedupExt_congr h rfl rfl

theorem drain_dedup (cfg : Config) (s : EngineState) (c : CycleInput)
    (hfa : cfg.fullAPI = false) : dedupExt s (drain cfg s c) := by
  simp only [drain]
  obtain ⟨u, h, hq⟩ := processRequests_frame { s with requestBuffer := s.requestBuffer ++ c.requests }
  rw [hq]
  have hd := processResponses_dedup cfg
    { { s with requestBuffer := List.nil, lastURL := u, lastHeaders := h }
      with responseBuffer := s.responseBuffer ++ c.responses } hfa
  obtain ⟨news, h1, h2, h3, h4, h5⟩ := hd
  exact ⟨news, h1, h2, h3, h4, h5⟩

theorem initiateGraft_postIds (cfg : Config) (s : EngineState) :
    (initiateGraft cfg s).postIds = s.postIds := by
  obtain ⟨g, st, hg⟩ := initiateGraft_frame cfg s
  rw [hg]

theorem pollOnce_post_fields (cfg : Config) (s : EngineState) (c : CycleInput) :
    (pollOnce cfg s c).1.postBuffer = (drain cfg s c).postBuffer ∧
    (pollOnce cfg s c).1.postIds = (drain cfg s c).postIds := by
  constructor
  · simp only [pollOnce]
    split
    · rfl
    · simp [apply_ite EngineState.postBuffer, initiateGraft_postBuffer, ite_self]
  · simp only [pollOnce]
    split
    · rfl
    · simp [apply_ite EngineState.postIds, initiateGraft_postIds, ite_self]

theorem pollOnce_dedup (cfg : Config) (s : EngineState) (c : CycleInput)
    (hfa : cfg.fullAPI = false) : dedupExt s (pollOnce cfg s c).1 := by
  obtain ⟨hb, hi⟩ := pollOnce_post_fields cfg s c
  exact dedupExt_congr (drain_dedup cfg s c hfa) hb.symm hi.symm

theorem getNextRun_dedup (cfg : Config) (cs : List CycleInput) (s : EngineState)
    (hfa : cfg.fullAPI = false) : dedupExt s (getNextRun cfg s cs).1 := by
  induction cs generalizing s with
  | nil => exact dedupExt_refl s
  | cons c rest ih =>
    simp only [getNextRun]
    split
    · exact pollOnce_dedup cfg s c hfa
    · exact dedupExt_trans (pollOnce_dedup cfg s c hfa) (ih (pollOnce cfg s c).1)

theorem generatorRun_dedup (cfg : Config) (script : List (List CycleInput)) (s : EngineState)
    (hfa : cfg.fullAPI = false) (hpb : s.postBuffer = []) :
    (pidList (generatorRun cfg s script).1).Nodup ∧
    (∀ i ∈ pidList (generatorRun cfg s script).1, i ∉ s.postIds.ids) := by
  induction script generalizing s with
  | nil => simp [generatorRun, pidList]
  | cons ci rest ih =>
    obtain ⟨news, h1, h2, h3, h4, h5⟩ := getNextRun_dedup cfg ci s hfa
    rw [hpb] at h1
    simp only [List.nil_append] at h1
    simp only [generatorRun]
    split
    · rw [h1]
      exact ⟨h2, h3⟩
    · have hrec := ih { (getNextRun cfg s ci).1 with postBuffer := [] } rfl
      rw [h1]
      constructor
      · simp only [pidList, List.map_append, List.nodup_append]
        refine ⟨h2, hrec.1, ?_⟩
        intro i him1 him2
        exact hrec.2 i (by simpa [pidList] using him2) (h4 i (by simpa [pidList] using him1))
      · intro i him
        simp only [pidList, List.map_append, List.mem_append] at him
        rcases him with him | him
        · exact h3 i (by simpa [pidList] using him)
        · intro hmem
          exact hrec.2 i (by simpa [pidList] using him) (h5 i hmem)

/-- C1: across any session — any script of intercepted requests and
responses, including repeated record identifiers within one response or
across responses — the sequence of records yielded by the generator
contains each record identifier at most once: a post whose id is
already in the `PostIdSet` is skipped and never enqueued. -/
theorem claim_C1 (cfg : Config) (hfa : cfg.fullAPI = false)
    (script : List (List CycleInput)) :
    (pidList (generatorRun cfg initState script).1).Nodup :=
  (generatorRun_dedup cfg script initState hfa rfl).1

/-- C1 witness: a concrete two-cycle session in which the same id
appears twice in one response and again in a later response still
yields pairwise distinct ids. -/
theorem claim_C1_witness :
    ((hashtagConfig 0).fullAPI = false) ∧
    (pidList (generatorRun (hashtagConfig 0) initState
      [[⟨[], [⟨exURL, some (mkBody true "c" [mkPost "a", mkPost "a", mkPost "b"])⟩]⟩],
       [⟨[], [⟨exURL, some (mkBody false "" [mkPost "b", mkPost "d"])⟩]⟩]]).1).Nodup :=
  ⟨rfl, claim_C1 (hashtagConfig 0) rfl
    [[⟨[], [⟨exURL, some (mkBody true "c" [mkPost "a", mkPost "a", mkPost "b"])⟩]⟩],
     [⟨[], [⟨exURL, some (mkBody false "" [mkPost "b", mkPost "d"])⟩]⟩]]⟩

theorem seenAfter_mem (xs : List Json) (seen : List PostId) (i : PostId) :
    i ∈ seenAfter xs seen ↔ i ∈ seen ∨ i ∈ pidList xs := by
  induction xs generalizing seen with
  | nil => simp [seenAfter, pidList]
  | cons p rest ih =>
    simp only [seenAfter, pidList, List.map_cons, List.mem_cons]
    by_cases h : idOf p ∈ seen
    · rw [if_pos h, ih]
      constructor
      · rintro (hs | hr)
        · exact Or.inl hs
        · exact Or.inr (Or.inr hr)
      · rintro (hs | rfl | hr)
        · exact Or.inl hs
        · exact Or.inl h
        · exact Or.inr hr
    · rw [if_neg h, ih]
      simp only [List.mem_cons]
      tauto

theorem freshCount_append (xs ys : List Json) (seen : List PostId) :
    freshCount (xs ++ ys) seen = freshCount xs seen + freshCount ys (seenAfter xs seen) := by
  induction xs generalizing seen with
  | nil => simp [freshCount, seenAfter]
  | cons p rest ih =>
    simp only [List.cons_append, freshCount, seenAfter]
    by_cases h : idOf p ∈ seen
    · simp only [if_pos h]
      exact ih seen
    · simp only [if_neg h]
      have hrec := ih (idOf p :: seen)
      simp only [List.append_eq] at hrec ⊢
      omega

theorem freshCount_congr (xs : List Json) (s1 s2 : List PostId)
    (h : ∀ i, i ∈ s1 ↔ i ∈ s2) : freshCount xs s1 = freshCount xs s2 := by
  induction xs generalizing s1 s2 with
  | nil => simp [freshCount]
  | cons p rest ih =>
    simp only [freshCount]
    by_cases hp : idOf p ∈ s1
    · rw [if_pos hp, if_pos ((h _).1 hp)]
      exact ih s1 s2 h
    · rw [if_neg hp, if_neg (fun hc => hp ((h _).2 hc))]
      rw [ih (idOf p :: s1) (idOf p :: s2) (by intro i; simp only [List.mem_cons, h i])]

theorem freshCount_anti (xs : List Json) (s1 s2 : List PostId)
    (h : ∀ i, i ∈ s1 → i ∈ s2) : freshCount xs s2 ≤ freshCount xs s1 := by
  induction xs generalizing s1 s2 with
  | nil => simp [freshCount]
  | cons p rest ih =>
    simp only [freshCount]
    by_cases h2 : idOf p ∈ s2
    · rw [if_pos h2]
      by_cases h1 : idOf p ∈ s1
      · rw [if_pos h1]
        exact ih s1 s2 h
      · rw [if_neg h1]
        have hle : freshCount rest s2 ≤ freshCount rest (idOf p :: s1) := by
          refine ih (idOf p :: s1) s2 ?_
          intro i hi
          rcases List.mem_cons.mp hi with rfl | hi
          · exact h2
          · exact h i hi
        omega
    · rw [if_neg h2]
      have h1 : idOf p ∉ s1 := fun hc => h2 (h _ hc)
      rw [if_neg h1]
      have hle := ih (idOf p :: s1) (idOf p :: s2) (by
        intro i hi
        rcases List.mem_cons.mp hi with rfl | hi
        · exact List.mem_cons_self _ _
        · exact List.mem_cons_of_mem _ (h i hi))
      omega

theorem processPosts_cap (cfg : Config) (posts : List Json) (s : EngineState)
    (htot : 0 < cfg.total) (hidx : s.index ≤ cfg.total) :
    (processPosts cfg s posts).index =
      min cfg.total (s.index + freshCount posts s.postIds.ids) ∧
    ((processPosts cfg s posts).index < cfg.total →
      ∀ i, i ∈ (processPosts cfg s posts).postIds.ids ↔
        i ∈ s.postIds.ids ∨ i ∈ pidList posts) ∧
    (cfg.total < s.index + freshCount posts s.postIds.ids →
      (processPosts cfg s posts).finished = true) ∧
    (s.finished = true → (processPosts cfg s posts).finished = true) ∧
    (∀ i ∈ (processPosts cfg s posts).postIds.ids, i ∈ s.postIds.ids ∨ i ∈ pidList posts) ∧
    (∀ i ∈ s.postIds.ids, i ∈ (processPosts cfg s posts).postIds.ids) := by
  induction posts generalizing s with
  | nil =>
    refine ⟨by simp [processPosts, freshCount]; omega, ?_, ?_, fun h => h, ?_, fun i hi => hi⟩
    · intro _ i
      simp [processPosts, pidList]
    · intro hc
      simp only [freshCount] at hc
      omega
    · intro i hi
      simp only [processPosts] at hi
      exact Or.inl hi
  | cons p rest ih =>
    simp only [processPosts, freshCount, pidList, List.map_cons]
    by_cases hdup : ((s.postIds.add (idOf p)).1 : Bool)
    · rw [if_pos hdup]
      have hmem : idOf p ∈ s.postIds.ids := by
        simpa [PostIdSet.add] using hdup
      have hids : (s.postIds.add (idOf p)).2.ids = s.postIds.ids := by
        simp [PostIdSet.add, hmem]
      rw [if_pos hmem]
      obtain ⟨ih1, ih2, ih3, ih4, ih5, ih6⟩ :=
        ih { s with postIds := (s.postIds.add (idOf p)).2 } hidx
      simp only [hids] at ih1 ih2 ih3 ih5 ih6
      refine ⟨ih1, ?_, ih3, ih4, ?_, ih6⟩
      · intro hlt i
        rw [ih2 hlt i]
        simp only [List.mem_cons]
        constructor
        · rintro (hs | hr)
          · exact Or.inl hs
          · exact Or.inr (Or.inr hr)
        · rintro (hs | rfl | hr)
          · exact Or.inl hs
          · exact Or.inl hmem
          · exact Or.inr hr
      · intro i hi
        rcases ih5 i hi with hs | hr
        · exact Or.inl hs
        · exact Or.inr (List.mem_cons_of_mem _ hr)
    · rw [if_neg hdup]
      have hmem : idOf p ∉ s.postIds.ids := by
        simpa [PostIdSet.add] using hdup
      have hids : (s.postIds.add (idOf p)).2.ids = idOf p :: s.postIds.ids := by
        simp [PostIdSet.add, hmem]
      rw [if_neg hmem]
      by_cases hcap : ((s.index < cfg.total || cfg.total == 0) : Bool)
      · rw [if_pos hcap]
        have hlt : s.index < cfg.total := by
          simp only [Bool.or_eq_true, decide_eq_true_eq, beq_iff_eq] at hcap
          rcases hcap with h | h
          · exact h
          · omega
        have harith : ∀ f : Nat, s.index + (f + 1) = (s.index + 1) + f := by omega
        by_cases hfa : (cfg.fullAPI : Bool)
        · rw [if_pos hfa]
          obtain ⟨ih1, ih2, ih3, ih4, ih5, ih6⟩ := ih
            { s with
              postIds := (s.postIds.add (idOf p)).2,
              index := s.index + 1,
              pagePromises := s.pagePromises ++ [shortcodeOf p] } (by simpa using hlt)
          simp only [hids] at ih1 ih2 ih3 ih5 ih6
          refine ⟨?_, ?_, ?_, ih4, ?_, ?_⟩
          · rw [ih1]
            omega
          · intro hlt2 i
            rw [ih2 hlt2 i]
            simp only [List.mem_cons]
            tauto
          · intro hc
            exact ih3 (by omega)
          · intro i hi
            rcases ih5 i hi with hs | hr
            · rcases List.mem_cons.mp hs with rfl | hs
              · exact Or.inr (List.mem_cons_self _ _)
              · exact Or.inl hs
            · exact Or.inr (List.mem_cons_of_mem _ hr)
          · intro i hi
            exact ih6 i (by simp [hids, hi])
        · rw [if_neg hfa]
          obtain ⟨ih1, ih2, ih3, ih4, ih5, ih6⟩ := ih
            { s with
              postIds := (s.postIds.add (idOf p)).2,
              index := s.index + 1,
              postBuffer := s.postBuffer ++ [p] } (by simpa using hlt)
          simp only [hids] at ih1 ih2 ih3 ih5 ih6
          refine ⟨?_, ?_, ?_, ih4, ?_, ?_⟩
          · rw [ih1]
            omega
          · intro hlt2 i
            rw [ih2 hlt2 i]
            simp only [List.mem_cons]
            tauto
          · intro hc
            exact ih3 (by omega)
          · intro i hi
            rcases ih5 i hi with hs | hr
            · rcases List.mem_cons.mp hs with rfl | hs
              · exact Or.inr (List.mem_cons_self _ _)
              · exact Or.inl hs
            · exact Or.inr (List.mem_cons_of_mem _ hr)
          · intro i hi
            exact ih6 i (by simp [hids, hi])
      · rw [if_neg hcap]
        have heq : s.index = cfg.total := by
          simp only [Bool.or_eq_true, decide_eq_true_eq, beq_iff_eq, not_or] at hcap
          omega
        refine ⟨?_, ?_, fun _ => rfl, fun _ => rfl, ?_, ?_⟩
        · simp only
          omega
        · intro hlt2
          simp only at hlt2
          omega
        · intro i hi
          simp only [hids, List.mem_cons] at hi
          rcases hi with rfl | hi
          · exact Or.inr (List.mem_cons_self _ _)
          · exact Or.inl hi
        · intro i hi
          simp [hids, hi]

/-- Cap behaviour of one engine step starting from `s` and supplying
the post envelopes `M`: the emitted count lands on the supply clipped
to the cap, the id cache tracks exactly the supplied ids while under
the cap, the finished flag is set when the fresh supply overshoots the
cap, finishing is monotone, and the id cache grows by supplied ids
only. -/
def capSpec (cfg : Config) (M : List Json) (s s' : EngineState) : Prop :=
  s'.index = min cfg.total (s.index + freshCount M s.postIds.ids) ∧
  (s'.index < cfg.total →
    ∀ i, i ∈ s'.postIds.ids ↔ i ∈ s.postIds.ids ∨ i ∈ pidList M) ∧
  (cfg.total < s.index + freshCount M s.postIds.ids → s'.finished = true) ∧
  (s.finished = true → s'.finished = true) ∧
  (∀ i ∈ s'.postIds.ids, i ∈ s.postIds.ids ∨ i ∈ pidList M) ∧
  (∀ i ∈ s.postIds.ids, i ∈ s'.postIds.ids)

theorem capSpec_comp (cfg : Config) (ps M2 : List Json) (s s1 s2 : EngineState)
    (h1 : capSpec cfg ps s s1) (h2 : capSpec cfg M2 s1 s2) :
    capSpec cfg (ps ++ M2) s s2 := by
  obtain ⟨a1, b1, c1, d1, e1, f1⟩ := h1
  obtain ⟨a2, b2, c2, d2, e2, f2⟩ := h2
  have happ := freshCount_append ps M2 s.postIds.ids
  have hsub : ∀ i ∈ s1.postIds.ids, i ∈ seenAfter ps s.postIds.ids := by
    intro i hi
    rw [seenAfter_mem]
    exact e1 i hi
  have hanti : freshCount M2 (seenAfter ps s.postIds.ids) ≤ freshCount M2 s1.postIds.ids :=
    freshCount_anti M2 s1.postIds.ids (seenAfter ps s.postIds.ids) hsub
  refine ⟨?_, ?_, ?_, fun hf => d2 (d1 hf), ?_, fun i hi => f2 i (f1 i hi)⟩
  · by_cases hc : s.index + freshCount ps s.postIds.ids < cfg.total
    · have hcongr : freshCount M2 s1.postIds.ids =
          freshCount M2 (seenAfter ps s.postIds.ids) := by
        refine freshCount_congr M2 _ _ ?_
        intro i
        rw [seenAfter_mem]
        exact b1 (by omega) i
      omega
    · omega
  · intro hlt i
    have hs1lt : s1.index < cfg.total := by omega
    have hiff1 := b1 hs1lt
    have hiff2 := b2 hlt i
    rw [hiff2, hiff1 i]
    simp only [pidList, List.map_append, List.mem_append]
    exact or_assoc
  · intro hgt
    by_cases hc : s1.index < cfg.total
    · have hcongr : freshCount M2 s1.postIds.ids =
          freshCount M2 (seenAfter ps s.postIds.ids) := by
        refine freshCount_congr M2 _ _ ?_
        intro i
        rw [seenAfter_mem]
        exact b1 hc i
      exact c2 (by omega)
    · by_cases hd : cfg.total < s.index + freshCount ps s.postIds.ids
      · exact d2 (c1 hd)
      · exact c2 (by omega)
  · intro i hi
    rcases e2 i hi with h | h
    · rcases e1 i h with h' | h'
      · exact Or.inl h'
      · refine Or.inr ?_
        simp only [pidList, List.map_append, List.mem_append]
        exact Or.inl (by simpa [pidList] using h')
    · refine Or.inr ?_
      simp only [pidList, List.map_append, List.mem_append]
      exact Or.inr (by simpa [pidList] using h)

theorem processPosts_capSpec (cfg : Config) (posts : List Json) (s : EngineState)
    (htot : 0 < cfg.total) (hidx : s.index ≤ cfg.total) :
    capSpec cfg posts s (processPosts cfg s posts) :=
  processPosts_cap cfg posts s htot hidx

theorem processResponse_capSpec (cfg : Config) (r : Response) (s : EngineState)
    (htot : 0 < cfg.total) (hidx : s.index ≤ cfg.total) :
    capSpec cfg (if statusFail r.json then [] else postsOf cfg r.json) s
      (processResponse cfg s r) := by
  by_cases hsf : statusFail r.json
  · rw [processResponse_statusFail cfg s r hsf]
    simp only [hsf, if_true]
    refine ⟨?_, ?_, ?_, fun h => h, ?_, fun i hi => hi⟩
    · simp only [freshCount]
      omega
    · intro _ i
      simp [pidList]
    · intro h
      simp only [freshCount] at h
      omega
    · intro i hi
      exact Or.inl hi
  · simp only [hsf, Bool.false_eq_true, if_false, processResponse]
    by_cases hpi : ((!(Json.truthy (jsGet r.json (cfg.pageQuery ++ ["has_next_page"]) (.bool false)) &&
        Json.truthy (jsGet r.json (cfg.pageQuery ++ ["end_cursor"]) (.bool false)))) : Bool)
    · rw [if_pos hpi]
      have capp := processPosts_cap cfg (postsOf cfg r.json) { s with finished := true } htot hidx
      exact ⟨capp.1, capp.2.1, capp.2.2.1, fun _ => capp.2.2.2.1 rfl,
        capp.2.2.2.2.1, capp.2.2.2.2.2⟩
    · rw [if_neg hpi]
      exact processPosts_cap cfg (postsOf cfg r.json) s htot hidx

theorem processMatched_cons_match (cfg : Config) (r : Response) (rest : List Response)
    (s : EngineState) (hm : matchURL r.url = true) :
    processMatched cfg s (r :: rest) =
      ((processMatched cfg (processResponse cfg s r) rest).1, true) := by
  simp only [processMatched]
  rw [hm]
  rfl

theorem processMatched_cons_skip (cfg : Config) (r : Response) (rest : List Response)
    (s : EngineState) (hm : matchURL r.url = false) :
    processMatched cfg s (r :: rest) = processMatched cfg s rest := by
  simp only [processMatched]
  rw [hm]
  rfl

theorem processMatched_cap (cfg : Config) (rs : List Response) (s : EngineState)
    (htot : 0 < cfg.total) (hidx : s.index ≤ cfg.total) :
    capSpec cfg (matchingPosts cfg rs) s (processMatched cfg s rs).1 := by
  induction rs generalizing s with
  | nil =>
    refine ⟨?_, ?_, ?_, fun h => h, ?_, fun i hi => hi⟩
    · simp only [processMatched, matchingPosts, freshCount]
      omega
    · intro _ i
      simp [processMatched, matchingPosts, pidList]
    · intro h
      simp only [matchingPosts, freshCount] at h
      omega
    · intro i hi
      exact Or.inl hi
  | cons r rest ih =>
    cases hm : matchURL r.url with
    | false =>
      have hlist : matchingPosts cfg (r :: rest) = matchingPosts cfg rest := by
        simp only [matchingPosts]
        rw [hm]
        rfl
      rw [hlist, processMatched_cons_skip cfg r rest s hm]
      exact ih s hidx
    | true =>
      cases hsf : statusFail r.json with
      | true =>
        have hlist : matchingPosts cfg (r :: rest) = matchingPosts cfg rest := by
          simp only [matchingPosts]
          rw [hm, hsf]
          rfl
        rw [hlist, processMatched_cons_match cfg r rest s hm,
          processResponse_statusFail cfg s r hsf]
        exact ih { s with hibernate := true } hidx
      | false =>
        have hlist : matchingPosts cfg (r :: rest) =
            postsOf cfg r.json ++ matchingPosts cfg rest := by
          simp only [matchingPosts]
          rw [hm, hsf]
          rfl
        rw [hlist, processMatched_cons_match cfg r rest s hm]
        have h1 := processResponse_capSpec cfg r s htot hidx
        simp only [hsf, Bool.false_eq_true, if_false] at h1
        have hidx1 : (processResponse cfg s r).index ≤ cfg.total := by
          have := h1.1
          omega
        have h2 := ih (processResponse cfg s r) hidx1
        exact capSpec_comp cfg (postsOf cfg r.json) (matchingPosts cfg rest) s _ _ h1 h2

theorem processResponses_cap (cfg : Config) (s : EngineState)
    (htot : 0 < cfg.total) (hidx : s.index ≤ cfg.total) :
    capSpec cfg (matchingPosts cfg s.responseBuffer) s (processResponses cfg s) := by
  have h := processMatched_cap cfg s.responseBuffer s htot hidx
  simp only [processResponses]
  split
  · exact h
  · exact h

theorem initiateGraft_index (cfg : Config) (s : EngineState) :
    (initiateGraft cfg s).index = s.index := by
  obtain ⟨g, st, hg⟩ := initiateGraft_frame cfg s
  rw [hg]

theorem processResponses_index_le (cfg : Config) (s : EngineState)
    (htot : 0 < cfg.total) (hidx : s.index ≤ cfg.total) :
    (processResponses cfg s).index ≤ cfg.total := by
  have h := (processResponses_cap cfg s htot hidx).1
  omega

theorem drain_index_le (cfg : Config) (s : EngineState) (c : CycleInput)
    (htot : 0 < cfg.total) (hidx : s.index ≤ cfg.total) :
    (drain cfg s c).index ≤ cfg.total := by
  simp only [drain]
  obtain ⟨u, h, hq⟩ := processRequests_frame { s with requestBuffer := s.requestBuffer ++ c.requests }
  rw [hq]
  exact processResponses_index_le cfg _ htot hidx

theorem pollOnce_index (cfg : Config) (s : EngineState) (c : CycleInput) :
    (pollOnce cfg s c).1.index = (drain cfg s c).index := by
  simp only [pollOnce]
  split
  · rfl
  · simp [apply_ite EngineState.index, initiateGraft_index, ite_self]

theorem getNextRun_index_le (cfg : Config) (cs : List CycleInput) (s : EngineState)
    (htot : 0 < cfg.total) (hidx : s.index ≤ cfg.total) :
    (getNextRun cfg s cs).1.index ≤ cfg.total := by
  induction cs generalizing s with
  | nil => exact hidx
  | cons c rest ih =>
    simp only [getNextRun]
    have hp : (pollOnce cfg s c).1.index ≤ cfg.total := by
      rw [pollOnce_index]
      exact drain_index_le cfg s c htot hidx
    split
    · exact hp
    · exact ih (pollOnce cfg s c).1 hp

theorem generatorRun_index_le (cfg : Config) (script : List (List CycleInput))
    (s : EngineState) (htot : 0 < cfg.total) (hidx : s.index ≤ cfg.total) :
    (generatorRun cfg s script).2.index ≤ cfg.total := by
  induction script generalizing s with
  | nil => exact hidx
  | cons ci rest ih =>
    simp only [generatorRun]
    have h1 : (getNextRun cfg s ci).1.index ≤ cfg.total :=
      getNextRun_index_le cfg ci s htot hidx
    split
    · exact h1
    · exact ih { (getNextRun cfg s ci).1 with postBuffer := [] } h1

/-- C2 counterexample: with total N = 1 and an upstream supply of
exactly one unique record whose page reports a further next page, the
session emits the one record but never reaches the finished state: the
cap branch only sets `finished` when a further fresh record arrives. -/
theorem claim_C2_counterexample :
    (freshCount (matchingPosts (hashtagConfig 1)
      [⟨exURL, some (mkBody true "c" [mkPost "a"])⟩]) [] = 1) ∧
    ((generatorRun (hashtagConfig 1) initState
      [[⟨[], [⟨exURL, some (mkBody true "c" [mkPost "a"])⟩]⟩]]).1.length = 1) ∧
    ((generatorRun (hashtagConfig 1) initState
      [[⟨[], [⟨exURL, some (mkBody true "c" [mkPost "a"])⟩]⟩]]).2.finished = false) :=
  ⟨rfl, rfl, rfl⟩

/-- C2 amended: with total N > 0, a drain cycle whose matching,
parseable, non-rate-limited responses supply at least N unique records
from a fresh session emits exactly N records; the emitted count is
incremented only under the cap guard and never exceeds N anywhere in
the session; and the cap sets `finished` as soon as the unique supply
strictly exceeds N (the first fresh record past the cap) — with a
supply of exactly N and every page promising more, `finished` is not
set by the cap. -/
theorem claim_C2_amended (cfg : Config) (N : Nat) (rs : List Response)
    (htotN : cfg.total = N) (hN : 0 < N)
    (hsup : N ≤ freshCount (matchingPosts cfg rs) []) :
    (processResponses cfg { initState with responseBuffer := rs }).index = N ∧
    (N < freshCount (matchingPosts cfg rs) [] →
      (processResponses cfg { initState with responseBuffer := rs }).finished = true) ∧
    (∀ s : EngineState, s.index ≤ cfg.total → (processResponses cfg s).index ≤ cfg.total) ∧
    (∀ (s : EngineState) (cs : List CycleInput), s.index ≤ cfg.total →
      (getNextRun cfg s cs).1.index ≤ cfg.total) ∧
    (∀ (s : EngineState) (script : List (List CycleInput)), s.index ≤ cfg.total →
      (generatorRun cfg s script).2.index ≤ cfg.total) := by
  have htot : 0 < cfg.total := by omega
  have hcap := processResponses_cap cfg { initState with responseBuffer := rs } htot
    (Nat.zero_le cfg.total)
  have e1 : (processResponses cfg { initState with responseBuffer := rs }).index =
      min cfg.total (0 + freshCount (matchingPosts cfg rs) []) := hcap.1
  have e3 : cfg.total < 0 + freshCount (matchingPosts cfg rs) [] →
      (processResponses cfg { initState with responseBuffer := rs }).finished = true :=
    hcap.2.2.1
  refine ⟨by omega, fun h => e3 (by omega), ?_, ?_, ?_⟩
  · exact fun s hidx => processResponses_index_le cfg s htot hidx
  · exact fun s cs hidx => getNextRun_index_le cfg cs s htot hidx
  · exact fun s script hidx => generatorRun_index_le cfg script s htot hidx

/-- C2 witness: total 2 and a response supplying three unique records:
exactly two are counted and the cap marks the session finished. -/
theorem claim_C2_witness :
    (processResponses (hashtagConfig 2)
      { initState with responseBuffer :=
        [⟨exURL, some (mkBody true "c" [mkPost "a", mkPost "b", mkPost "e"])⟩] }).index = 2 ∧
    (processResponses (hashtagConfig 2)
      { initState with responseBuffer :=
        [⟨exURL, some (mkBody true "c" [mkPost "a", mkPost "b", mkPost "e"])⟩] }).finished = true := by
  have h := claim_C2_amended (hashtagConfig 2) 2
    [⟨exURL, some (mkBody true "c" [mkPost "a", mkPost "b", mkPost "e"])⟩]
    rfl (by decide) (by decide)
  exact ⟨h.1, h.2.1 (by decide)⟩

theorem processPosts_appendAll (cfg : Config) (posts : List Json) (s : EngineState)
    (hfa : cfg.fullAPI = false) (htot : cfg.total = 0)
    (hnd : (pidList posts).Nodup) (hfresh : ∀ i ∈ pidList posts, i ∉ s.postIds.ids) :
    (processPosts cfg s posts).postBuffer = s.postBuffer ++ posts ∧
    (processPosts cfg s posts).finished = s.finished := by
  induction posts generalizing s with
  | nil => simp [processPosts]
  | cons p rest ih =>
    simp only [processPosts]
    have hmem : idOf p ∉ s.postIds.ids := hfresh (idOf p) (by simp [pidList])
    have hdup : (s.postIds.add (idOf p)).1 = false := by
      simp [PostIdSet.add, hmem]
    have hids : (s.postIds.add (idOf p)).2.ids = idOf p :: s.postIds.ids := by
      simp [PostIdSet.add, hmem]
    simp only [hdup, Bool.false_eq_true, if_false, htot, hfa]
    rw [if_pos (by simp)]
    have hnd' : (pidList rest).Nodup := by
      simp only [pidList, List.map_cons, List.nodup_cons] at hnd
      exact hnd.2
    have hhead : idOf p ∉ pidList rest := by
      simp only [pidList, List.map_cons, List.nodup_cons] at hnd
      exact hnd.1
    have hfresh' : ∀ i ∈ pidList rest,
        i ∉ ({ s with
          postIds := (s.postIds.add (idOf p)).2,
          index := s.index + 1,
          postBuffer := s.postBuffer ++ [p] } : EngineState).postIds.ids := by
      intro i hi
      simp only [hids, List.mem_cons, not_or]
      constructor
      · intro heq
        exact hhead (heq ▸ hi)
      · exact hfresh i (by simp [pidList]; right; simpa [pidList] using hi)
    obtain ⟨ihb, ihf⟩ := ih
      { s with
        postIds := (s.postIds.add (idOf p)).2,
        index := s.index + 1,
        postBuffer := s.postBuffer ++ [p] } hnd' hfresh'
    refine ⟨?_, ihf⟩
    rw [ihb]
    simp

theorem processResponses_single (cfg : Config) (s : EngineState) (r : Response)
    (hm : matchURL r.url = true) :
    (processResponses cfg { s with responseBuffer := [r] }).postBuffer =
      (processResponse cfg { s with responseBuffer := [r] } r).postBuffer ∧
    (processResponses cfg { s with responseBuffer := [r] }).finished =
      (processResponse cfg { s with responseBuffer := [r] } r).finished := by
  simp only [processResponses]
  rw [processMatched_cons_match cfg r [] _ hm]
  split <;> exact ⟨rfl, rfl⟩

/-- C8: a matching response whose page-info path does not yield a
truthy next-page flag and a truthy end cursor sets the finished flag,
yet its own records are still extracted and enqueued after the flag is
set (shown here in unlimited mode with fresh, distinct ids, where
every record of the response lands in the buffer); and no drain ever
discards records already queued: the post buffer only grows under
`processResponses`, and the generator yields every already-buffered
record before terminating. -/
theorem claim_C8 :
    (∀ cfg (s : EngineState) (r : Response),
      matchURL r.url = true →
      statusFail r.json = false →
      (Json.truthy (jsGet r.json (cfg.pageQuery ++ ["has_next_page"]) (.bool false)) &&
        Json.truthy (jsGet r.json (cfg.pageQuery ++ ["end_cursor"]) (.bool false))) = false →
      cfg.fullAPI = false → cfg.total = 0 →
      (pidList (postsOf cfg r.json)).Nodup →
      (∀ i ∈ pidList (postsOf cfg r.json), i ∉ s.postIds.ids) →
      (processResponses cfg { s with responseBuffer := [r] }).finished = true ∧
      (processResponses cfg { s with responseBuffer := [r] }).postBuffer =
        s.postBuffer ++ postsOf cfg r.json) ∧
    (∀ cfg (s : EngineState), ∃ t, (processResponses cfg s).postBuffer = s.postBuffer ++ t) ∧
    (∀ cfg (s : EngineState) ci rest, ∃ t,
      (generatorRun cfg s (ci :: rest)).1 = s.postBuffer ++ t) := by
  refine ⟨?_, fun cfg s => processResponses_buffer cfg s,
    fun cfg s ci rest => generatorRun_extends cfg s ci rest⟩
  intro cfg s r h1 h2 h3 h4 h5 h6 h7
  obtain ⟨hb, hfin⟩ := processResponses_single cfg s r h1
  have hpr : processResponse cfg { s with responseBuffer := [r] } r =
      processPosts cfg { s with responseBuffer := [r], finished := true }
        (postsOf cfg r.json) := by
    simp only [processResponse, h2, Bool.false_eq_true, if_false]
    rw [h3]
    rfl
  have hsp := processPosts_appendAll cfg (postsOf cfg r.json)
    { s with responseBuffer := [r], finished := true } h4 h5 h6 h7
  constructor
  · rw [hfin, hpr, hsp.2]
  · rw [hb, hpr, hsp.1]

/-- C8 witness: a no-next-page response with two fresh records arriving
while one earlier record is already queued: the session finishes, the
earlier record stays queued, and both new records are appended. -/
theorem claim_C8_witness :
    (processResponses (hashtagConfig 0)
      { initState with
        postBuffer := [mkPost "z"],
        postIds := ⟨[idOf (mkPost "z")]⟩,
        responseBuffer := [⟨exURL, some (mkBody false "" [mkPost "a", mkPost "b"])⟩] }).finished
        = true ∧
    (processResponses (hashtagConfig 0)
      { initState with
        postBuffer := [mkPost "z"],
        postIds := ⟨[idOf (mkPost "z")]⟩,
        responseBuffer := [⟨exURL, some (mkBody false "" [mkPost "a", mkPost "b"])⟩] }).postBuffer
        = [mkPost "z"] ++ postsOf (hashtagConfig 0)
            (some (mkBody false "" [mkPost "a", mkPost "b"])) :=
  claim_C8.1 (hashtagConfig 0)
    { initState with postBuffer := [mkPost "z"], postIds := ⟨[idOf (mkPost "z")]⟩ }
    ⟨exURL, some (mkBody false "" [mkPost "a", mkPost "b"])⟩
    (by decide) (by decide) (by decide) rfl rfl (by decide) (by decide)

end Instamancer
